import Mathlib

/-!
Verification of the character-level tokenizers of the med_char-level RAG
repository: the phonetic (pinyin) tokenizer of
`customs_tokenizers/.ipynb_checkpoints/pinyin_tokenizer-checkpoint.py`
and the two graphemic (stroke) tokenizers of
`customs_tokenizers/stroke_tokenizer.py` and `zh2text.py`.

Python strings are modelled as Lean `String`s (pinyin side) or `List Char`
(stroke side); Python dicts are modelled as association lists in insertion
order, where a later assignment to the same key wins (`pyGet`).
-/

namespace MedTok

/-- Lookup in a Python-style dict modelled as an assoc list in insertion
order: the value of the last binding of the key, if any. -/
def pyGet {α β : Type} [DecidableEq α] (d : List (α × β)) (k : α) : Option β :=
  (d.reverse.find? (fun p => decide (p.1 = k))).map Prod.snd

/-- Whitespace test used by Python's `str.strip()` and `str.split()`. -/
def isWs (c : Char) : Bool := c.isWhitespace

/-- Python `str.strip()` on a character list: drop leading and trailing
whitespace. -/
def trimL (l : List Char) : List Char :=
  ((l.dropWhile isWs).reverse.dropWhile isWs).reverse

/-! ## The phonetic (pinyin) tokenizer

From `customs_tokenizers/.ipynb_checkpoints/pinyin_tokenizer-checkpoint.py`,
class `PinyinTokenizer`. -/

namespace Pinyin

def pad_token : String := "[PAD]"
def unk_token : String := "[UNK]"
def cls_token : String := "[CLS]"
def sep_token : String := "[SEP]"

def special_tokens : List String := [pad_token, unk_token, cls_token, sep_token]

/-- The fixed initials alphabet of `_build_vocab`. -/
def initials : List String :=
  ["b", "p", "m", "f", "d", "t", "n", "l",
   "g", "k", "h", "j", "q", "x",
   "zh", "ch", "sh", "r", "z", "c", "s", "y", "w"]

/-- The fixed finals alphabet of `_build_vocab`. -/
def finals : List String :=
  ["a", "o", "e", "i", "u", "v", "ai", "ei", "ui", "ao", "ou", "iu",
   "ie", "ve", "an", "en", "in", "un", "vn", "ang", "eng", "ing", "ong"]

def tones : List String := ["1", "2", "3", "4", "5"]

/-- `vocab = self.special_tokens + initials + finals + tones`. -/
def vocab : List String := special_tokens ++ initials ++ finals ++ tones

/-- `self.token2id = {t: i for i, t in enumerate(vocab)}` as an assoc list. -/
def vocabDict : List (String × Nat) := vocab.enum.map (fun p => (p.2, p.1))

def token2id (t : String) : Option Nat := pyGet vocabDict t

/-- `self.id2token = {i: t for t, i in self.token2id.items()}`. -/
def id2token (i : Nat) : Option String := pyGet (vocabDict.map (fun p => (p.2, p.1))) i

/-- `self.token2id[self.unk_token]` (present, value 1). -/
def unkId : Nat := (token2id unk_token).getD 0

def clsId : Nat := (token2id cls_token).getD 0
def sepId : Nat := (token2id sep_token).getD 0
def padId : Nat := (token2id pad_token).getD 0

/-- `self.token2id.get(t, self.token2id[self.unk_token])`. -/
def tokenId (t : String) : Nat := (token2id t).getD unkId

/-- `tone = p[-1] if p and p[-1].isdigit() else '5'`. -/
def tone_of (p : String) : String :=
  match p.data.getLast? with
  | some c => if c.isDigit then String.mk [c] else "5"
  | none => "5"

/-- `p_core = p[:-1] if tone != '5' else p`. -/
def core_of (p : String) : String :=
  if tone_of p ≠ "5" then String.mk p.data.dropLast else p

/-- The loop `for i in range(len(p_core), 0, -1): if p_core[:i] in
self.token2id: ...` of `split_pinyin`: first argument is the core, second the
current prefix length (tried from the full length downwards). -/
def splitCore (core : List Char) : Nat → Option (String × String)
  | 0 => none
  | Nat.succ i =>
    if (token2id (String.mk (core.take (i + 1)))).isSome then
      some (String.mk (core.take (i + 1)), String.mk (core.drop (i + 1)))
    else splitCore core i

/-- `PinyinTokenizer.split_pinyin`. -/
def split_pinyin (p : String) : List String :=
  match splitCore (core_of p).data (core_of p).data.length with
  | some (ini, fin) => [ini, fin, tone_of p]
  | none => [unk_token, unk_token, tone_of p]

/-- The skip test of `encode`: `if not syl or not syl[0].strip(): continue`;
an entry is kept when it is a non-empty list whose first element does not
strip to the empty string. -/
def keepEntry (syl : List String) : Bool :=
  match syl with
  | [] => false
  | s :: _ => !(trimL s.data).isEmpty

/-- `PinyinTokenizer.encode`, from the list of per-syllable entries returned
by the external `pypinyin.pinyin` romanization utility onwards. -/
def encode (syllables : List (List String)) : List Nat :=
  let ids := (syllables.filter keepEntry).flatMap
    (fun syl => (split_pinyin (syl.headD "")).map tokenId)
  if ids.isEmpty then [unkId] else ids

/-- The CLS/SEP-wrapped id sequence built at the start of
`PinyinTokenizer.__call__`. -/
def wrappedIds (syllables : List (List String)) : List Nat :=
  clsId :: encode syllables ++ [sepId]

/-- `PinyinTokenizer.__call__` with the default options
(`padding='max_length'`, `truncation=True`), from the syllable entries
onwards; returns `(input_ids, attention_mask)`. -/
def callTok (syllables : List (List String)) (maxLen : Nat) : List Nat × List Nat :=
  let ids := (wrappedIds syllables).take maxLen
  let am := List.replicate ids.length 1
  let padLen := maxLen - ids.length
  (ids ++ List.replicate padLen padId, am ++ List.replicate padLen 0)

/-- The prefix loop of `split_pinyin` as claim C1 words it: membership is
tested in the initials vocabulary only (instead of the full `token2id`
table the code consults). Second, claim-side definition kept for
comparison with `splitCore`. -/
def splitCoreInitialsOnly (core : List Char) : Nat → Option (String × String)
  | 0 => none
  | Nat.succ i =>
    if String.mk (core.take (i + 1)) ∈ initials then
      some (String.mk (core.take (i + 1)), String.mk (core.drop (i + 1)))
    else splitCoreInitialsOnly core i

/-- `split_pinyin` as claim C1 words it: the longest prefix of the core
found in the initials vocabulary is the initial. Claim-side definition. -/
def split_pinyin_claimed (p : String) : List String :=
  match splitCoreInitialsOnly (core_of p).data (core_of p).data.length with
  | some (ini, fin) => [ini, fin, tone_of p]
  | none => [unk_token, unk_token, tone_of p]

end Pinyin

/-! ## The graphemic (stroke) tokenizers

From `customs_tokenizers/stroke_tokenizer.py` (class `StrokeTokenizer`) and
`zh2text.py` (the earlier `StrokeTokenizer` variant). Strings are modelled
as `List Char`; a decomposition table is an assoc list from key string
(`parts[0]`) to stroke string (`parts[1]`) in file order, read through
`pyGet` (last binding wins, like the Python dict it models). A file is
`Option (List (List Char))`: `none` models a missing file, `some lines` its
lines with the trailing newline removed. -/

namespace Stroke

/-- A Python string on this side of the development. -/
abbrev Sym := List Char

def pad_tok : Sym := "[PAD]".data
def unk_tok : Sym := "[UNK]".data
def cls_tok : Sym := "[CLS]".data
def sep_tok : Sym := "[SEP]".data

/-- Helper for Python `str.split()` (split on whitespace runs, no empty
fields); the accumulator holds the current field reversed. -/
def splitWsAux : List Char → List Char → List (List Char)
  | [], acc => if acc.isEmpty then [] else [acc.reverse]
  | c :: cs, acc =>
    if isWs c then
      if acc.isEmpty then splitWsAux cs [] else acc.reverse :: splitWsAux cs []
    else splitWsAux cs (c :: acc)

/-- Python `str.split()` with no separator argument. -/
def pySplit (l : List Char) : List (List Char) := splitWsAux l []

/-- One line of `StrokeTokenizer._load_zh2text` in `stroke_tokenizer.py`:
`parts = line.strip().split(); if len(parts) >= 2: mapping[parts[0]] =
parts[1]` (stripping before a whitespace split does not change the fields,
so the split is taken directly). -/
def loadLine (m : List (Sym × Sym)) (line : List Char) : List (Sym × Sym) :=
  match pySplit line with
  | c :: s :: _ => m ++ [(c, s)]
  | _ => m

/-- `StrokeTokenizer._load_zh2text` in `stroke_tokenizer.py`: a missing file
(`none`) is caught (`except FileNotFoundError`) and yields the empty
mapping. -/
def load (file : Option (List (List Char))) : List (Sym × Sym) :=
  match file with
  | none => []
  | some lines => lines.foldl loadLine []

/-- One line of `StrokeTokenizer._load_zh2text` in `zh2text.py`:
`line = line.strip(); if not line or line.startswith('#'): continue;
parts = line.split(); if len(parts) >= 2: ...`. -/
def zhLoadLine (m : List (Sym × Sym)) (line : List Char) : List (Sym × Sym) :=
  let l := trimL line
  if l.isEmpty || l.head? = some '#' then m
  else
    match pySplit l with
    | c :: s :: _ => m ++ [(c, s)]
    | _ => m

/-- The line loop of `_load_zh2text` in `zh2text.py`. -/
def zhLoadLines (lines : List (List Char)) : List (Sym × Sym) :=
  lines.foldl zhLoadLine []

/-- `StrokeTokenizer._load_zh2text` in `zh2text.py`: `open` raises an
uncaught `FileNotFoundError` on a missing file, modelled as `Except.error`. -/
def zhLoad (file : Option (List (List Char))) : Except Unit (List (Sym × Sym)) :=
  match file with
  | none => Except.error ()
  | some lines => Except.ok (zhLoadLines lines)

/-- The sorted list of distinct stroke symbols of `_build_vocab` /
`_build_stroke_vocab`: a set is filled with every character of every value
of the table, then sorted. -/
def strokeChars (m : List (Sym × Sym)) : List Char :=
  ((m.map Prod.snd).flatten.dedup).insertionSort (fun a b => a ≤ b)

/-- `StrokeTokenizer._build_vocab` in `stroke_tokenizer.py` as an assoc
list: `self.stroke2id = {s: i + 4 for i, s in enumerate(strokes)}` followed
by the four special-token assignments `stroke2id[PAD]=0 ... stroke2id[SEP]=3`. -/
def strokeVocabList (m : List (Sym × Sym)) : List (Sym × Nat) :=
  ((strokeChars m).enum.map (fun p => ([p.2], p.1 + 4)))
    ++ [(pad_tok, 0), (unk_tok, 1), (cls_tok, 2), (sep_tok, 3)]

def stroke2id (m : List (Sym × Sym)) (s : Sym) : Option Nat :=
  pyGet (strokeVocabList m) s

/-- `self.id2stroke = {v: k for k, v in self.stroke2id.items()}`. -/
def id2stroke (m : List (Sym × Sym)) (i : Nat) : Option Sym :=
  pyGet ((strokeVocabList m).map (fun p => (p.2, p.1))) i

/-- `StrokeTokenizer._build_stroke_vocab` in `zh2text.py`:
`vocab = self.special_tokens + all_strokes`. -/
def zhVocab (m : List (Sym × Sym)) : List Sym :=
  [pad_tok, unk_tok, cls_tok, sep_tok] ++ (strokeChars m).map (fun c => [c])

/-- `self.stroke2idx = {s: i for i, s in enumerate(vocab)}` in `zh2text.py`. -/
def zhStroke2idx (m : List (Sym × Sym)) (s : Sym) : Option Nat :=
  pyGet ((zhVocab m).enum.map (fun p => (p.2, p.1))) s

/-- `StrokeTokenizer.text_to_strokes` in `stroke_tokenizer.py`: a mapped
character is spread into its single-character stroke symbols, an unmapped
one contributes the UNK token itself. -/
def text_to_strokes (m : List (Sym × Sym)) (text : List Char) : List Sym :=
  text.flatMap (fun ch =>
    match pyGet m [ch] with
    | some v => v.map (fun c => [c])
    | none => [unk_tok])

/-- `StrokeTokenizer.char_to_strokes` in `zh2text.py`:
`self.char2stroke.get(char, self.unk_token)` (a plain string). -/
def zhChar_to_strokes (m : List (Sym × Sym)) (ch : Char) : List Char :=
  (pyGet m [ch]).getD unk_tok

/-- `StrokeTokenizer.text_to_strokes` in `zh2text.py`:
`stroke_chars.extend(list(strokes))` — the result of `char_to_strokes` is
always spread into single characters, including the `'[UNK]'` fallback
string. -/
def zhText_to_strokes (m : List (Sym × Sym)) (text : List Char) : List Sym :=
  text.flatMap (fun ch => (zhChar_to_strokes m ch).map (fun c => [c]))

/-- `self.stroke2id.get(s, self.stroke2id[self.unk_token])` in
`stroke_tokenizer.py.__call__`. -/
def symId (m : List (Sym × Sym)) (s : Sym) : Nat :=
  (stroke2id m s).getD ((stroke2id m unk_tok).getD 0)

/-- The CLS/SEP-wrapped id sequence of one text inside
`StrokeTokenizer.__call__` of `stroke_tokenizer.py`, before truncation. -/
def wrapText (m : List (Sym × Sym)) (text : List Char) : List Nat :=
  (stroke2id m cls_tok).getD 0
    :: (text_to_strokes m text).map (symId m) ++ [(stroke2id m sep_tok).getD 0]

/-- `if truncation and len(ids) > max_length: ids = ids[:max_length]`. -/
def truncIds (maxLen : Nat) (ids : List Nat) : List Nat :=
  if ids.length > maxLen then ids.take maxLen else ids

/-- `StrokeTokenizer.__call__` of `stroke_tokenizer.py` with the default
options (`padding=True`, `truncation=True`) on a batch of texts: each
sequence is wrapped, truncated, padded to the longest sequence of the
batch, and masked by comparison with the PAD id; returns
`(input_ids, attention_mask)` per batch row. -/
def callBatch (m : List (Sym × Sym)) (texts : List (List Char)) (maxLen : Nat) :
    List (List Nat) × List (List Nat) :=
  let all_ids := texts.map (fun t => truncIds maxLen (wrapText m t))
  let batchMax := (all_ids.map List.length).foldl Nat.max 0
  let padId := (stroke2id m pad_tok).getD 0
  let padded := all_ids.map (fun ids => ids ++ List.replicate (batchMax - ids.length) padId)
  let masks := padded.map (fun ids => ids.map (fun i => if i = padId then 0 else 1))
  (padded, masks)

/-- `self.stroke2idx.get(s, self.stroke2idx[self.unk_token])` in
`zh2text.py.__call__`. -/
def zhSymId (m : List (Sym × Sym)) (s : Sym) : Nat :=
  (zhStroke2idx m s).getD ((zhStroke2idx m unk_tok).getD 0)

/-- The CLS/SEP-wrapped id sequence of `StrokeTokenizer.__call__` in
`zh2text.py`, before truncation. -/
def zhWrap (m : List (Sym × Sym)) (text : List Char) : List Nat :=
  (zhStroke2idx m cls_tok).getD 0
    :: (zhText_to_strokes m text).map (zhSymId m) ++ [(zhStroke2idx m sep_tok).getD 0]

/-- `StrokeTokenizer.__call__` of `zh2text.py` with the default options
(`padding='max_length'`, `truncation=True`); returns
`(input_ids, attention_mask)`. -/
def zhCall (m : List (Sym × Sym)) (text : List Char) (maxLen : Nat) :
    List Nat × List Nat :=
  let ids := truncIds maxLen (zhWrap m text)
  let am := List.replicate ids.length 1
  let padLen := maxLen - ids.length
  (ids ++ List.replicate padLen ((zhStroke2idx m pad_tok).getD 0),
   am ++ List.replicate padLen 0)

end Stroke

/-! ## Library lemmas about the dict model -/

theorem pyGet_mem {α β : Type} [DecidableEq α] {d : List (α × β)} {k : α} {v : β}
    (h : pyGet d k = some v) : (k, v) ∈ d := by
  unfold pyGet at h
  rw [Option.map_eq_some'] at h
  obtain ⟨p, hp, hv⟩ := h
  have hmem : p ∈ d.reverse := List.mem_of_find?_eq_some hp
  have hk : p.1 = k := by
    have := List.find?_some hp
    simpa using this
  rw [List.mem_reverse] at hmem
  have : p = (k, v) := by
    cases p
    simp_all
  rw [← this]
  exact hmem

theorem find?_key_of_mem {α β : Type} [DecidableEq α] {d : List (α × β)} {k : α} {v : β}
    (hnd : (d.map Prod.fst).Nodup) (hmem : (k, v) ∈ d) :
    d.find? (fun p => decide (p.1 = k)) = some (k, v) := by
  induction d with
  | nil => cases hmem
  | cons a tl ih =>
    rw [List.map_cons, List.nodup_cons] at hnd
    rcases List.mem_cons.mp hmem with h | h
    · rw [← h]
      simp [List.find?_cons]
    · have hk : k ∈ tl.map Prod.fst := List.mem_map.mpr ⟨(k, v), h, rfl⟩
      have hne : a.1 ≠ k := fun he => hnd.1 (he ▸ hk)
      rw [List.find?_cons, decide_eq_false hne]
      exact ih hnd.2 h

theorem pyGet_of_mem_nodup {α β : Type} [DecidableEq α] {d : List (α × β)} {k : α} {v : β}
    (hnd : (d.map Prod.fst).Nodup) (hmem : (k, v) ∈ d) : pyGet d k = some v := by
  unfold pyGet
  have hnd' : (d.reverse.map Prod.fst).Nodup := by
    rw [List.map_reverse]
    exact List.nodup_reverse.mpr hnd
  rw [find?_key_of_mem hnd' (List.mem_reverse.mpr hmem)]
  rfl

theorem pyGet_swap {α β : Type} [DecidableEq α] [DecidableEq β] {d : List (α × β)}
    (hvals : (d.map Prod.snd).Nodup) {k : α} {v : β} (h : pyGet d k = some v) :
    pyGet (d.map (fun p => (p.2, p.1))) v = some k := by
  have hmem : (k, v) ∈ d := pyGet_mem h
  have hmem' : (v, k) ∈ d.map (fun p => (p.2, p.1)) :=
    List.mem_map.mpr ⟨(k, v), hmem, rfl⟩
  have hnd : ((d.map (fun p => (p.2, p.1))).map Prod.fst).Nodup := by
    rw [List.map_map]
    simpa [Function.comp] using hvals
  exact pyGet_of_mem_nodup hnd hmem'

/-! ## Lemmas and claim theorems: the phonetic tokenizer -/

namespace Pinyin

theorem splitCore_eq_none_iff (core : List Char) :
    ∀ n, splitCore core n = none ↔
      ∀ i, i ≤ n → 1 ≤ i → (token2id (String.mk (core.take i))).isSome = false := by
  intro n
  induction n with
  | zero =>
    simp only [splitCore]
    constructor
    · intro _ i h1 h2
      omega
    · intro _
      trivial
  | succ n ih =>
    by_cases h : (token2id (String.mk (core.take (n + 1)))).isSome = true
    · simp only [splitCore, h, if_true]
      constructor
      · intro hc
        cases hc
      · intro hall
        have := hall (n + 1) le_rfl (by omega)
        rw [h] at this
        cases this
    · have h' : (token2id (String.mk (core.take (n + 1)))).isSome = false := by
        revert h
        cases (token2id (String.mk (core.take (n + 1)))).isSome <;> simp
      simp only [splitCore, h', Bool.false_eq_true, if_false]
      rw [ih]
      constructor
      · intro hall i hle h1
        rcases Nat.lt_or_ge i (n + 1) with hlt | hge
        · exact hall i (by omega) h1
        · have : i = n + 1 := by omega
          rw [this]
          exact h'
      · intro hall i hle h1
        exact hall i (by omega) h1

theorem splitCore_eq_some (core : List Char) :
    ∀ n i, 1 ≤ i → i ≤ n → (token2id (String.mk (core.take i))).isSome = true →
      (∀ j, j ≤ n → i < j → (token2id (String.mk (core.take j))).isSome = false) →
      splitCore core n = some (String.mk (core.take i), String.mk (core.drop i)) := by
  intro n
  induction n with
  | zero =>
    intro i h1 h2
    omega
  | succ n ih =>
    intro i h1 h2 hsome hmax
    by_cases h : (token2id (String.mk (core.take (n + 1)))).isSome = true
    · have : i = n + 1 := by
        by_contra hne
        have hlt : i < n + 1 := by omega
        have := hmax (n + 1) le_rfl hlt
        rw [h] at this
        cases this
      subst this
      simp only [splitCore, h, if_true]
    · have h' : (token2id (String.mk (core.take (n + 1)))).isSome = false := by
        revert h
        cases (token2id (String.mk (core.take (n + 1)))).isSome <;> simp
      have hne : i ≠ n + 1 := by
        intro he
        rw [he, h'] at hsome
        cases hsome
      simp only [splitCore, h', Bool.false_eq_true, if_false]
      exact ih i h1 (by omega) hsome (fun j hj hij => hmax j (by omega) hij)

theorem split_pinyin_length (p : String) : (split_pinyin p).length = 3 := by
  unfold split_pinyin
  cases splitCore (core_of p).data (core_of p).data.length with
  | none => rfl
  | some v =>
    cases v
    rfl

theorem length_flatMap_of_three (f : List String → List Nat) :
    ∀ l : List (List String), (∀ x ∈ l, (f x).length = 3) →
      (l.flatMap f).length = 3 * l.length := by
  intro l
  induction l with
  | nil => intro _; rfl
  | cons a tl ih =>
    intro h
    rw [List.flatMap_cons, List.length_append, h a (List.mem_cons_self a tl),
      ih (fun x hx => h x (List.mem_cons_of_mem a hx))]
    simp only [List.length_cons]
    omega

/-- Claim C1, counterexample: on the syllable `"a1"` the code consults the
full `token2id` table, in which `"a"` (a final) occurs, and so returns the
split `["a", "", "1"]`, while the claimed initials-only search finds no
prefix and would return `(UNK, UNK, "1")`. -/
theorem claim_C1_counterexample :
    split_pinyin "a1" = ["a", "", "1"]
    ∧ split_pinyin_claimed "a1" = [unk_token, unk_token, "1"]
    ∧ split_pinyin "a1" ≠ split_pinyin_claimed "a1" :=
  ⟨by decide, by decide, by decide⟩

/-- Claim C1 (amended): for every syllable, the phonetic split tries
prefixes of the tone-stripped core from the full core length down to
length 1 and takes the first (longest) prefix that is a member of the full
token vocabulary (special tokens, initials, finals and tone symbols) as the
initial, with the remainder of the core as the final; if no prefix of any
length matches, the split returns (UNK, UNK, tone) and never fails. The
syllable `"zhong1"` splits to initial `"zh"` (not `"z"`), final `"ong"`,
tone `"1"`. -/
theorem claim_C1_greedy_longest_prefix :
    (∀ p : String,
      (∀ i, i ≤ (core_of p).data.length → 1 ≤ i →
        (token2id (String.mk ((core_of p).data.take i))).isSome = false) →
      split_pinyin p = [unk_token, unk_token, tone_of p])
    ∧ (∀ (p : String) (i : Nat), 1 ≤ i → i ≤ (core_of p).data.length →
        (token2id (String.mk ((core_of p).data.take i))).isSome = true →
        (∀ j, j ≤ (core_of p).data.length → i < j →
          (token2id (String.mk ((core_of p).data.take j))).isSome = false) →
        split_pinyin p =
          [String.mk ((core_of p).data.take i), String.mk ((core_of p).data.drop i),
            tone_of p])
    ∧ split_pinyin "zhong1" = ["zh", "ong", "1"] := by
  refine ⟨?_, ?_, by decide⟩
  · intro p hall
    unfold split_pinyin
    rw [(splitCore_eq_none_iff _ _).mpr hall]
  · intro p i h1 h2 hsome hmax
    unfold split_pinyin
    rw [splitCore_eq_some _ _ i h1 h2 hsome hmax]

/-- Witness for `claim_C1_greedy_longest_prefix`: the longest matching
prefix of the core of `"an1"` is the whole core `"an"`, and no prefix of
the core of `"!"` matches, so that syllable degrades to `(UNK, UNK, "5")`. -/
theorem claim_C1_greedy_longest_prefix_witness :
    split_pinyin "an1" = ["an", "", "1"]
    ∧ split_pinyin "!" = [unk_token, unk_token, "5"] := by
  constructor
  · have h := claim_C1_greedy_longest_prefix.2.1 "an1" 2 (by omega) (by decide)
      (by decide) (fun j hj hlt => by
        have hlen2 : (core_of "an1").data.length = 2 := by decide
        rw [hlen2] at hj
        exact absurd hlt (by omega))
    rw [h]
    decide
  · have h := claim_C1_greedy_longest_prefix.1 "!"
      (fun i hi h1 => by
        have he : i = 1 := by
          have : (core_of "!").data.length = 1 := by decide
          omega
        subst he
        decide)
    rw [h]
    decide

/-- Claim C2, counterexample: the trailing digit is only removed when it
differs from `'5'` (`p_core = p[:-1] if tone != '5' else p`), so the
syllable `"ni5"` is split over the full string `"ni5"` and yields the final
`"i5"` instead of `"i"`, although its last character is a decimal digit. -/
theorem claim_C2_counterexample :
    tone_of "ni5" = "5" ∧ core_of "ni5" = "ni5"
    ∧ split_pinyin "ni5" = ["n", "i5", "5"]
    ∧ split_pinyin "ni5" ≠ ["n", "i", "5"] :=
  ⟨by decide, by decide, by decide, by decide⟩

/-- Claim C2 (amended): a trailing digit other than `'5'` is emitted as the
tone and removed before the initial/final split; a trailing `'5'` is
emitted as tone `"5"` but not removed (the split runs over the full
syllable); a non-digit last character gives tone `"5"` with nothing
removed. -/
theorem claim_C2_tone_extraction (p : String) :
    (∀ c, p.data.getLast? = some c → c.isDigit = true → c ≠ '5' →
      tone_of p = String.mk [c] ∧ core_of p = String.mk p.data.dropLast)
    ∧ (p.data.getLast? = some '5' → tone_of p = "5" ∧ core_of p = p)
    ∧ (∀ c, p.data.getLast? = some c → c.isDigit = false →
      tone_of p = "5" ∧ core_of p = p) := by
  refine ⟨?_, ?_, ?_⟩
  · intro c hc hd hne
    have ht : tone_of p = String.mk [c] := by
      unfold tone_of
      rw [hc]
      simp [hd]
    refine ⟨ht, ?_⟩
    unfold core_of
    rw [ht]
    have hne5 : String.mk [c] ≠ "5" := by
      intro he
      have : [c] = ['5'] := congrArg String.data he
      exact hne (List.cons_eq_cons.mp this).1
    simp [hne5]
  · intro hc
    have ht : tone_of p = "5" := by
      unfold tone_of
      rw [hc]
      decide
    refine ⟨ht, ?_⟩
    unfold core_of
    rw [ht]
    simp
  · intro c hc hd
    have ht : tone_of p = "5" := by
      unfold tone_of
      rw [hc]
      simp [hd]
    refine ⟨ht, ?_⟩
    unfold core_of
    rw [ht]
    simp

/-- Witness for `claim_C2_tone_extraction` at `"ni3"` (digit tone, removed),
`"ni5"` (digit `'5'`, not removed) and `"ma"` (no digit, nothing removed). -/
theorem claim_C2_tone_extraction_witness :
    (tone_of "ni3" = "3" ∧ core_of "ni3" = "ni")
    ∧ (tone_of "ni5" = "5" ∧ core_of "ni5" = "ni5")
    ∧ (tone_of "ma" = "5" ∧ core_of "ma" = "ma") := by
  refine ⟨?_, ?_, ?_⟩
  · have h := (claim_C2_tone_extraction "ni3").1 '3' (by decide) (by decide) (by decide)
    exact ⟨by rw [h.1], by rw [h.2]; decide⟩
  · exact (claim_C2_tone_extraction "ni5").2.1 (by decide)
  · exact (claim_C2_tone_extraction "ma").2.2 'a' (by decide) (by decide)

/-- Claim C3: phonetic `encode` drops every entry that is empty or
whitespace-only, emits exactly 3 ids per retained entry (so the output has
length `3 k` for `k` retained entries), and falls back to exactly one UNK
id when nothing is retained, so it never returns an empty sequence. -/
theorem claim_C3_encode_shape (s : List (List String)) :
    ((s.filter keepEntry) = [] → encode s = [unkId])
    ∧ (encode s).length =
        (if (s.filter keepEntry) = [] then 1 else 3 * (s.filter keepEntry).length)
    ∧ encode s ≠ [] := by
  have hlen : ((s.filter keepEntry).flatMap
      (fun syl => (split_pinyin (syl.headD "")).map tokenId)).length
      = 3 * (s.filter keepEntry).length := by
    apply length_flatMap_of_three
    intro x _
    rw [List.length_map, split_pinyin_length]
  by_cases h : (s.filter keepEntry) = []
  · refine ⟨fun _ => ?_, ?_, ?_⟩
    · unfold encode
      rw [h]
      rfl
    · unfold encode
      rw [h]
      simp
    · unfold encode
      rw [h]
      simp
  · have hk : (s.filter keepEntry).length ≠ 0 := by
      intro he
      exact h (List.length_eq_zero.mp he)
    have hne : ((s.filter keepEntry).flatMap
        (fun syl => (split_pinyin (syl.headD "")).map tokenId)) ≠ [] := by
      intro he
      rw [he] at hlen
      simp only [List.length_nil] at hlen
      omega
    refine ⟨fun hc => absurd hc h, ?_, ?_⟩
    · unfold encode
      simp only [List.isEmpty_iff, hne, if_neg, if_false, h]
      exact hlen
    · unfold encode
      simp only [List.isEmpty_iff, hne, if_neg, if_false]
      exact hne

/-- Witness for `claim_C3_encode_shape`: a whitespace-only entry list falls
back to the single UNK id, and one retained syllable emits exactly 3 ids. -/
theorem claim_C3_encode_shape_witness :
    encode [[""]] = [unkId] ∧ (encode [["ni3"], [" "]]).length = 3 := by
  constructor
  · exact (claim_C3_encode_shape [[""]]).1 rfl
  · rw [(claim_C3_encode_shape [["ni3"], [" "]]).2.1]
    decide

end Pinyin

/-! ## Lemmas and claim theorems: the graphemic tokenizers -/

namespace Stroke

theorem splitWsAux_all_ws :
    ∀ ws : List Char, (∀ c ∈ ws, isWs c = true) →
      ∀ acc, splitWsAux ws acc = if acc.isEmpty then [] else [acc.reverse] := by
  intro ws
  induction ws with
  | nil =>
    intro _ acc
    rfl
  | cons c cs ih =>
    intro h acc
    have hc : isWs c = true := h c (List.mem_cons_self c cs)
    have hcs : ∀ x ∈ cs, isWs x = true := fun x hx => h x (List.mem_cons_of_mem c hx)
    cases acc with
    | nil =>
      simp only [splitWsAux, hc, if_true, List.isEmpty_nil]
      rw [ih hcs []]
      rfl
    | cons a as =>
      simp only [splitWsAux, hc, if_true, List.isEmpty_cons]
      rw [ih hcs []]
      rfl

theorem splitWsAux_append_ws (ws : List Char) (hws : ∀ c ∈ ws, isWs c = true) :
    ∀ l acc, splitWsAux (l ++ ws) acc = splitWsAux l acc := by
  intro l
  induction l with
  | nil =>
    intro acc
    rw [List.nil_append, splitWsAux_all_ws ws hws acc]
    rfl
  | cons c cs ih =>
    intro acc
    by_cases hc : isWs c = true
    · cases acc with
      | nil =>
        simp only [List.cons_append, splitWsAux, hc, if_true, List.isEmpty_nil]
        exact ih []
      | cons a as =>
        simp only [List.cons_append, splitWsAux, hc, if_true, List.isEmpty_cons,
          Bool.false_eq_true, if_false, List.append_eq]
        rw [ih []]
    · have hc' : isWs c = false := by
        revert hc
        cases isWs c <;> simp
      simp only [List.cons_append, splitWsAux, hc', Bool.false_eq_true, if_false]
      exact ih (c :: acc)

theorem splitWsAux_dropWhile :
    ∀ l : List Char, splitWsAux (l.dropWhile isWs) [] = splitWsAux l [] := by
  intro l
  induction l with
  | nil => rfl
  | cons c cs ih =>
    by_cases hc : isWs c = true
    · rw [List.dropWhile_cons, if_pos hc, ih]
      simp only [splitWsAux, hc, if_true, List.isEmpty_nil]
    · have hc' : isWs c = false := by
        revert hc
        cases isWs c <;> simp
      rw [List.dropWhile_cons, if_neg (by rw [hc']; exact Bool.false_ne_true)]

theorem pySplit_trimL (l : List Char) : pySplit (trimL l) = pySplit l := by
  unfold pySplit trimL
  have hdecomp : l.dropWhile isWs =
      ((l.dropWhile isWs).reverse.dropWhile isWs).reverse
        ++ ((l.dropWhile isWs).reverse.takeWhile isWs).reverse := by
    have h := List.takeWhile_append_dropWhile isWs (l.dropWhile isWs).reverse
    have h2 := congrArg List.reverse h
    rw [List.reverse_append, List.reverse_reverse] at h2
    exact h2.symm
  have hws : ∀ c ∈ ((l.dropWhile isWs).reverse.takeWhile isWs).reverse, isWs c = true := by
    intro c hc
    rw [List.mem_reverse] at hc
    exact List.mem_takeWhile_imp hc
  calc splitWsAux ((l.dropWhile isWs).reverse.dropWhile isWs).reverse []
      = splitWsAux (((l.dropWhile isWs).reverse.dropWhile isWs).reverse
          ++ ((l.dropWhile isWs).reverse.takeWhile isWs).reverse) [] :=
        (splitWsAux_append_ws _ hws _ _).symm
    _ = splitWsAux (l.dropWhile isWs) [] := by rw [← hdecomp]
    _ = splitWsAux l [] := splitWsAux_dropWhile l

theorem splitWsAux_mem_ne_nil :
    ∀ (l acc : List Char) (w : List Char), w ∈ splitWsAux l acc → w ≠ [] := by
  intro l
  induction l with
  | nil =>
    intro acc w hw
    cases acc with
    | nil => simp [splitWsAux] at hw
    | cons a as =>
      simp only [splitWsAux, List.isEmpty_cons, Bool.false_eq_true, if_false,
        List.mem_singleton] at hw
      rw [hw]
      simp
  | cons c cs ih =>
    intro acc w hw
    by_cases hc : isWs c = true
    · cases acc with
      | nil =>
        simp only [splitWsAux, hc, if_true, List.isEmpty_nil] at hw
        exact ih [] w hw
      | cons a as =>
        simp only [splitWsAux, hc, if_true, List.isEmpty_cons, Bool.false_eq_true,
          if_false] at hw
        rcases List.mem_cons.mp hw with h | h
        · rw [h]
          simp
        · exact ih [] w h
    · have hc' : isWs c = false := by
        revert hc
        cases isWs c <;> simp
      simp only [splitWsAux, hc', Bool.false_eq_true, if_false] at hw
      exact ih (c :: acc) w hw

theorem pySplit_mem_ne_nil (l : List Char) (w : List Char) (hw : w ∈ pySplit l) :
    w ≠ [] :=
  splitWsAux_mem_ne_nil l [] w hw

theorem loadLine_values_ne_nil (m : List (Sym × Sym)) (line : List Char)
    (hm : ∀ p ∈ m, p.2 ≠ []) : ∀ p ∈ loadLine m line, p.2 ≠ [] := by
  intro p hp
  unfold loadLine at hp
  cases hps : pySplit line with
  | nil =>
    rw [hps] at hp
    exact hm p hp
  | cons a tl =>
    cases tl with
    | nil =>
      rw [hps] at hp
      exact hm p hp
    | cons b tl2 =>
      rw [hps] at hp
      simp only [List.mem_append, List.mem_singleton] at hp
      rcases hp with h | h
      · exact hm p h
      · have hb : b ∈ pySplit line := by
          rw [hps]
          exact List.mem_cons_of_mem a (List.mem_cons_self b tl2)
        rw [h]
        exact pySplit_mem_ne_nil line b hb

theorem load_values_ne_nil :
    ∀ (lines : List (List Char)) (m : List (Sym × Sym)),
      (∀ p ∈ m, p.2 ≠ []) → ∀ p ∈ lines.foldl loadLine m, p.2 ≠ [] := by
  intro lines
  induction lines with
  | nil =>
    intro m hm p hp
    exact hm p hp
  | cons l ls ih =>
    intro m hm p hp
    rw [List.foldl_cons] at hp
    exact ih (loadLine m l) (loadLine_values_ne_nil m l hm) p hp

theorem singletonChar_injective : Function.Injective (fun c : Char => [c]) :=
  fun a b hab => (List.cons_eq_cons.mp hab).1

theorem strokeChars_nodup (m : List (Sym × Sym)) : (strokeChars m).Nodup := by
  unfold strokeChars
  exact (List.perm_insertionSort _ _).symm.nodup (List.nodup_dedup _)

theorem strokeVocab_keys (m : List (Sym × Sym)) :
    (strokeVocabList m).map Prod.fst
      = (strokeChars m).map (fun c => [c]) ++ [pad_tok, unk_tok, cls_tok, sep_tok] := by
  unfold strokeVocabList
  rw [List.map_append, List.map_map]
  congr 1
  have h : (Prod.fst ∘ fun p : Nat × Char => (([p.2] : Sym), p.1 + 4))
      = (fun c => [c]) ∘ Prod.snd := rfl
  rw [h, ← List.map_map, List.enum_map_snd]

theorem strokeVocab_vals (m : List (Sym × Sym)) :
    (strokeVocabList m).map Prod.snd
      = ((List.range (strokeChars m).length).map (fun i => i + 4)) ++ [0, 1, 2, 3] := by
  unfold strokeVocabList
  rw [List.map_append, List.map_map]
  congr 1
  have h : (Prod.snd ∘ fun p : Nat × Char => (([p.2] : Sym), p.1 + 4))
      = (fun i => i + 4) ∘ Prod.fst := rfl
  rw [h, ← List.map_map, List.enum_map_fst]

theorem singleton_ne_special (c : Char) :
    [c] ≠ pad_tok ∧ [c] ≠ unk_tok ∧ [c] ≠ cls_tok ∧ [c] ≠ sep_tok := by
  refine ⟨?_, ?_, ?_, ?_⟩
  all_goals {
    intro h
    have hl := congrArg List.length h
    rw [List.length_singleton] at hl
    exact absurd hl (by decide)
  }

theorem strokeVocab_keys_nodup (m : List (Sym × Sym)) :
    ((strokeVocabList m).map Prod.fst).Nodup := by
  rw [strokeVocab_keys]
  apply List.Nodup.append
  · exact List.Nodup.map singletonChar_injective (strokeChars_nodup m)
  · decide
  · intro x hx hx2
    obtain ⟨c, _, rfl⟩ := List.mem_map.mp hx
    simp only [List.mem_cons, List.not_mem_nil, or_false] at hx2
    rcases hx2 with h | h | h | h
    · exact (singleton_ne_special c).1 h
    · exact (singleton_ne_special c).2.1 h
    · exact (singleton_ne_special c).2.2.1 h
    · exact (singleton_ne_special c).2.2.2 h

theorem strokeVocab_vals_nodup (m : List (Sym × Sym)) :
    ((strokeVocabList m).map Prod.snd).Nodup := by
  rw [strokeVocab_vals]
  apply List.Nodup.append
  · exact List.Nodup.map (fun _ _ hab => by omega) (List.nodup_range _)
  · decide
  · intro x hx hx2
    obtain ⟨i, _, rfl⟩ := List.mem_map.mp hx
    simp only [List.mem_cons, List.not_mem_nil, or_false] at hx2
    omega

theorem stroke2id_pad (m : List (Sym × Sym)) : stroke2id m pad_tok = some 0 := by
  apply pyGet_of_mem_nodup (strokeVocab_keys_nodup m)
  unfold strokeVocabList
  exact List.mem_append_right _ (by decide)

theorem stroke2id_unk (m : List (Sym × Sym)) : stroke2id m unk_tok = some 1 := by
  apply pyGet_of_mem_nodup (strokeVocab_keys_nodup m)
  unfold strokeVocabList
  exact List.mem_append_right _ (by decide)

theorem stroke2id_cls (m : List (Sym × Sym)) : stroke2id m cls_tok = some 2 := by
  apply pyGet_of_mem_nodup (strokeVocab_keys_nodup m)
  unfold strokeVocabList
  exact List.mem_append_right _ (by decide)

theorem stroke2id_sep (m : List (Sym × Sym)) : stroke2id m sep_tok = some 3 := by
  apply pyGet_of_mem_nodup (strokeVocab_keys_nodup m)
  unfold strokeVocabList
  exact List.mem_append_right _ (by decide)

theorem stroke2id_singleton_ge4 (m : List (Sym × Sym)) (c : Char) (v : Nat)
    (h : stroke2id m [c] = some v) : 4 ≤ v := by
  have hm := pyGet_mem h
  unfold strokeVocabList at hm
  rcases List.mem_append.mp hm with h1 | h1
  · obtain ⟨p, _, hpe⟩ := List.mem_map.mp h1
    have hv : p.1 + 4 = v := congrArg Prod.snd hpe
    omega
  · simp only [List.mem_cons, List.not_mem_nil, or_false] at h1
    rcases h1 with h2 | h2 | h2 | h2
    · exact absurd (congrArg Prod.fst h2) (singleton_ne_special c).1
    · exact absurd (congrArg Prod.fst h2) (singleton_ne_special c).2.1
    · exact absurd (congrArg Prod.fst h2) (singleton_ne_special c).2.2.1
    · exact absurd (congrArg Prod.fst h2) (singleton_ne_special c).2.2.2

theorem stroke2id_mem_strokeChars (m : List (Sym × Sym)) (c : Char)
    (hc : c ∈ strokeChars m) : ∃ k, stroke2id m [c] = some k ∧ 4 ≤ k := by
  obtain ⟨i, hi⟩ := List.mem_iff_get?.mp hc
  have hmem : (([c] : Sym), i + 4) ∈ strokeVocabList m := by
    unfold strokeVocabList
    apply List.mem_append_left
    exact List.mem_map.mpr ⟨(i, c), List.mem_enum_iff_get?.mpr hi, rfl⟩
  exact ⟨i + 4, pyGet_of_mem_nodup (strokeVocab_keys_nodup m) hmem, by omega⟩

theorem pyGet_enum_swap {α : Type} [DecidableEq α] (l : List α) (hl : l.Nodup)
    (i : Nat) (a : α) (hi : l.get? i = some a) :
    pyGet (l.enum.map (fun p => (p.2, p.1))) a = some i := by
  apply pyGet_of_mem_nodup
  · rw [List.map_map]
    have h : (Prod.fst ∘ fun p : Nat × α => (p.2, p.1)) = Prod.snd := rfl
    rw [h, List.enum_map_snd]
    exact hl
  · exact List.mem_map.mpr ⟨(i, a), List.mem_enum_iff_get?.mpr hi, rfl⟩

theorem zhVocab_nodup (m : List (Sym × Sym)) : (zhVocab m).Nodup := by
  unfold zhVocab
  apply List.Nodup.append
  · decide
  · exact List.Nodup.map singletonChar_injective (strokeChars_nodup m)
  · intro x hx hx2
    obtain ⟨c, _, rfl⟩ := List.mem_map.mp hx2
    simp only [List.mem_cons, List.not_mem_nil, or_false] at hx
    rcases hx with h | h | h | h
    · exact (singleton_ne_special c).1 h
    · exact (singleton_ne_special c).2.1 h
    · exact (singleton_ne_special c).2.2.1 h
    · exact (singleton_ne_special c).2.2.2 h

theorem zhStroke2idx_pad (m : List (Sym × Sym)) : zhStroke2idx m pad_tok = some 0 :=
  pyGet_enum_swap _ (zhVocab_nodup m) 0 _ rfl

theorem zhStroke2idx_unk (m : List (Sym × Sym)) : zhStroke2idx m unk_tok = some 1 :=
  pyGet_enum_swap _ (zhVocab_nodup m) 1 _ rfl

theorem zhStroke2idx_cls (m : List (Sym × Sym)) : zhStroke2idx m cls_tok = some 2 :=
  pyGet_enum_swap _ (zhVocab_nodup m) 2 _ rfl

theorem zhStroke2idx_sep (m : List (Sym × Sym)) : zhStroke2idx m sep_tok = some 3 :=
  pyGet_enum_swap _ (zhVocab_nodup m) 3 _ rfl

theorem zhStroke2idx_mem (m : List (Sym × Sym)) (c : Char)
    (hc : c ∈ strokeChars m) : ∃ k, zhStroke2idx m [c] = some k ∧ 4 ≤ k := by
  obtain ⟨i, hi⟩ := List.mem_iff_get?.mp hc
  refine ⟨4 + i, ?_, by omega⟩
  apply pyGet_enum_swap _ (zhVocab_nodup m)
  show (([pad_tok, unk_tok, cls_tok, sep_tok] : List Sym)
      ++ (strokeChars m).map (fun c => [c])).get? (4 + i) = some [c]
  rw [List.get?_append_right (by simp)]
  simp only [List.length_cons, List.length_nil]
  rw [show 4 + i - (0 + 1 + 1 + 1 + 1) = i by omega]
  rw [List.get?_map, hi]
  rfl

end Stroke

namespace Stroke

theorem truncIds_eq_take (maxLen : Nat) (ids : List Nat) :
    truncIds maxLen ids = ids.take maxLen := by
  unfold truncIds
  by_cases h : ids.length > maxLen
  · rw [if_pos h]
  · rw [if_neg h]
    exact (List.take_of_length_le (by omega)).symm

theorem map_mask_ones :
    ∀ l : List Nat, (∀ x ∈ l, x ≠ 0) →
      l.map (fun i => if i = 0 then 0 else 1) = List.replicate l.length 1 := by
  intro l
  induction l with
  | nil => intro _; rfl
  | cons a tl ih =>
    intro h
    rw [List.map_cons, if_neg (h a (List.mem_cons_self a tl)),
      ih (fun x hx => h x (List.mem_cons_of_mem a hx)), List.length_cons]
    rfl

theorem text_to_strokes_shape (m : List (Sym × Sym)) (text : List Char)
    (s : Sym) (hs : s ∈ text_to_strokes m text) : (∃ c, s = [c]) ∨ s = unk_tok := by
  unfold text_to_strokes at hs
  obtain ⟨ch, _, hmem⟩ := List.mem_flatMap.mp hs
  cases hg : pyGet m [ch] with
  | some v =>
    rw [hg] at hmem
    obtain ⟨c, _, rfl⟩ := List.mem_map.mp hmem
    exact Or.inl ⟨c, rfl⟩
  | none =>
    rw [hg] at hmem
    rw [List.mem_singleton] at hmem
    exact Or.inr hmem

theorem wrapText_ids_ne_zero (m : List (Sym × Sym)) (text : List Char) :
    ∀ i ∈ wrapText m text, i ≠ 0 := by
  intro i hi
  unfold wrapText at hi
  rcases List.mem_cons.mp hi with h | h
  · rw [h, stroke2id_cls m]
    simp
  · rcases List.mem_append.mp h with h2 | h2
    · obtain ⟨s, hs, rfl⟩ := List.mem_map.mp h2
      unfold symId
      rcases text_to_strokes_shape m text s hs with ⟨c, rfl⟩ | rfl
      · cases hv : stroke2id m [c] with
        | some v =>
          have h4 := stroke2id_singleton_ge4 m c v hv
          simp only [Option.getD_some]
          omega
        | none =>
          rw [stroke2id_unk m]
          simp
      · rw [stroke2id_unk m]
        simp
    · rw [List.mem_singleton] at h2
      rw [h2, stroke2id_sep m]
      simp

theorem callBatch_singleton (m : List (Sym × Sym)) (text : List Char) (maxLen : Nat) :
    callBatch m [text] maxLen
      = ([(wrapText m text).take maxLen],
         [List.replicate ((wrapText m text).take maxLen).length 1]) := by
  unfold callBatch
  simp only [List.map_cons, List.map_nil, truncIds_eq_take]
  have hb : ([((wrapText m text).take maxLen).length].foldl Nat.max 0)
      = ((wrapText m text).take maxLen).length := by
    simp [List.foldl_cons, Nat.max]
  rw [hb]
  simp only [Nat.sub_self, List.replicate_zero, List.append_nil]
  have hpad : (stroke2id m pad_tok).getD 0 = 0 := by
    rw [stroke2id_pad m]
    rfl
  rw [hpad]
  have hmask : ((wrapText m text).take maxLen).map (fun i => if i = 0 then 0 else 1)
      = List.replicate ((wrapText m text).take maxLen).length 1 := by
    apply map_mask_ones
    intro x hx
    exact wrapText_ids_ne_zero m text x (List.mem_of_mem_take hx)
  rw [hmask]

theorem text_to_strokes_nil_table (text : List Char) :
    text_to_strokes [] text = List.replicate text.length unk_tok := by
  induction text with
  | nil => rfl
  | cons c cs ih =>
    unfold text_to_strokes at ih ⊢
    rw [List.flatMap_cons, ih, List.length_cons]
    rfl

/-- Claim C4, counterexample: the `zh2text.py` loader has no
`except FileNotFoundError` handler, so constructing that variant with a
nonexistent table path propagates the error instead of degrading to an
empty table as the `stroke_tokenizer.py` loader does. -/
theorem claim_C4_counterexample :
    zhLoad none = Except.error () ∧ load none = [] :=
  ⟨rfl, rfl⟩

/-- Claim C4 (amended, scoped to `stroke_tokenizer.py`): constructing the
`stroke_tokenizer.py` graphemic tokenizer with a nonexistent table path is
never fatal: the loader returns the empty table, every input character then
falls back to UNK, and the encoder still returns a well-formed
`(input_ids, attention_mask)` result; the `zh2text.py` variant instead
raises at construction. -/
theorem claim_C4_missing_table_resilience :
    load none = []
    ∧ (∀ text : List Char,
        text_to_strokes [] text = List.replicate text.length unk_tok)
    ∧ (∀ (text : List Char) (maxLen : Nat),
        callBatch [] [text] maxLen
          = ([(wrapText [] text).take maxLen],
             [List.replicate (min maxLen (text.length + 2)) 1])
          ∧ (wrapText [] text).length = text.length + 2) := by
  refine ⟨rfl, text_to_strokes_nil_table, ?_⟩
  intro text maxLen
  have hlen : (wrapText [] text).length = text.length + 2 := by
    unfold wrapText
    simp only [List.length_cons, List.length_append, List.length_map,
      text_to_strokes_nil_table, List.length_replicate, List.length_singleton,
      List.length_nil]
  refine ⟨?_, hlen⟩
  rw [callBatch_singleton, List.length_take, hlen]

/-- Claim C5: in `stroke_tokenizer.py` an absent character contributes
exactly one UNK symbol and a character mapped to n stroke symbols
contributes exactly those n symbols in order; but in `zh2text.py` the UNK
fallback string itself is spread into its five characters, so one absent
character contributes five ids (`['[', 'U', 'N', 'K', ']']`), not one —
and the `'U'` can even hit a real stroke id when `U` is a stroke symbol. -/
theorem claim_C5_absent_char_fallback :
    text_to_strokes [] ['x'] = [unk_tok]
    ∧ text_to_strokes [(['a'], ['b', 'c'])] ['a'] = [['b'], ['c']]
    ∧ zhText_to_strokes [] ['x'] = [['['], ['U'], ['N'], ['K'], [']']]
    ∧ (zhText_to_strokes [] ['x']).map (zhSymId []) = [1, 1, 1, 1, 1]
    ∧ (zhText_to_strokes [(['a'], ['U'])] ['x']).map (zhSymId [(['a'], ['U'])])
        = [1, 4, 1, 1, 1] :=
  ⟨by decide, by decide, by decide, by decide, by decide⟩

theorem loadLine_eq_zhLoadLine (m : List (Sym × Sym)) (l : List Char)
    (h : (trimL l).head? ≠ some '#') : loadLine m l = zhLoadLine m l := by
  unfold loadLine zhLoadLine
  by_cases he : (trimL l).isEmpty = true
  · have hl0 : trimL l = [] := by
      cases hl : trimL l with
      | nil => rfl
      | cons a as =>
        rw [hl] at he
        simp at he
    have hps : pySplit l = [] := by
      rw [← pySplit_trimL l, hl0]
      rfl
    rw [hps, hl0]
    rfl
  · have hcond : ((trimL l).isEmpty || decide ((trimL l).head? = some '#')) = false := by
      rw [Bool.or_eq_false_iff]
      constructor
      · revert he
        cases (trimL l).isEmpty <;> simp
      · exact decide_eq_false h
    simp only [hcond, Bool.false_eq_true, if_false]
    rw [pySplit_trimL]

theorem foldl_load_eq (lines : List (List Char)) :
    (∀ l ∈ lines, (trimL l).head? ≠ some '#') →
      ∀ m, lines.foldl loadLine m = lines.foldl zhLoadLine m := by
  induction lines with
  | nil =>
    intro _ m
    rfl
  | cons l ls ih =>
    intro h m
    rw [List.foldl_cons, List.foldl_cons,
      loadLine_eq_zhLoadLine m l (h l (List.mem_cons_self l ls))]
    exact ih (fun x hx => h x (List.mem_cons_of_mem l hx)) (zhLoadLine m l)

/-- Claim C10, counterexample: on the one-line file `"# a b"` the
`stroke_tokenizer.py` loader records the entry `'#' -> 'a'` while the
`zh2text.py` loader skips the comment line, so the two loaders do not
produce the same mapping. -/
theorem claim_C10_counterexample :
    load (some ["# a b".data]) = [("#".data, "a".data)]
    ∧ zhLoadLines ["# a b".data] = []
    ∧ pyGet (load (some ["# a b".data])) "#".data = some "a".data
    ∧ pyGet (zhLoadLines ["# a b".data]) "#".data = none :=
  ⟨by decide, by decide, by decide, by decide⟩

/-- Claim C10 (amended): the two graphemic table loaders skip blank lines
and lines with fewer than two whitespace-separated fields alike, and they
produce the same mapping for every file none of whose lines starts (after
stripping) with `'#'`; they differ exactly on `'#'`-comment lines with at
least two fields, which `zh2text.py` skips and `stroke_tokenizer.py`
parses as data. -/
theorem claim_C10_loader_agreement (lines : List (List Char))
    (h : ∀ l ∈ lines, (trimL l).head? ≠ some '#') :
    load (some lines) = zhLoadLines lines := by
  unfold load zhLoadLines
  exact foldl_load_eq lines h []

/-- Witness for `claim_C10_loader_agreement` on a two-line comment-free
file (one data line, one blank line). -/
theorem claim_C10_loader_agreement_witness :
    load (some ["a b".data, " ".data]) = zhLoadLines ["a b".data, " ".data] :=
  claim_C10_loader_agreement ["a b".data, " ".data] (by decide)

end Stroke

/-! ## Claim theorems spanning both schemes -/

theorem swap_involution {α β : Type} (d : List (α × β)) :
    (d.map (fun p => (p.2, p.1))).map (fun p => (p.2, p.1)) = d := by
  rw [List.map_map]
  have h : ((fun p : β × α => (p.2, p.1)) ∘ fun p : α × β => (p.2, p.1)) = id := rfl
  rw [h, List.map_id]

theorem vocabDict_keys_nodup : (Pinyin.vocabDict.map Prod.fst).Nodup := by
  unfold Pinyin.vocabDict
  rw [List.map_map]
  have h : (Prod.fst ∘ fun p : Nat × String => (p.2, p.1)) = Prod.snd := rfl
  rw [h, List.enum_map_snd]
  decide

theorem vocabDict_vals_nodup : (Pinyin.vocabDict.map Prod.snd).Nodup := by
  unfold Pinyin.vocabDict
  rw [List.map_map]
  have h : (Prod.snd ∘ fun p : Nat × String => (p.2, p.1)) = Prod.fst := rfl
  rw [h, List.enum_map_fst]
  exact List.nodup_range _

/-- Claim C8: for both schemes the vocabulary is a bijective symbol-to-id
mapping: looking a symbol up and reversing the id returns the symbol, and
conversely reversing an id and looking the symbol up returns the id. -/
theorem claim_C8_vocab_roundtrip :
    (∀ t i, Pinyin.token2id t = some i → Pinyin.id2token i = some t)
    ∧ (∀ i t, Pinyin.id2token i = some t → Pinyin.token2id t = some i)
    ∧ (∀ (m : List (Stroke.Sym × Stroke.Sym)) s i,
        Stroke.stroke2id m s = some i → Stroke.id2stroke m i = some s)
    ∧ (∀ (m : List (Stroke.Sym × Stroke.Sym)) i s,
        Stroke.id2stroke m i = some s → Stroke.stroke2id m s = some i) := by
  refine ⟨?_, ?_, ?_, ?_⟩
  · intro t i h
    exact pyGet_swap vocabDict_vals_nodup h
  · intro i t h
    have hv : ((Pinyin.vocabDict.map (fun p => (p.2, p.1))).map Prod.snd).Nodup := by
      rw [List.map_map]
      have hcomp : (Prod.snd ∘ fun p : String × Nat => (p.2, p.1)) = Prod.fst := rfl
      rw [hcomp]
      exact vocabDict_keys_nodup
    have h3 := pyGet_swap hv h
    rw [swap_involution] at h3
    exact h3
  · intro m s i h
    exact pyGet_swap (Stroke.strokeVocab_vals_nodup m) h
  · intro m i s h
    have hv : (((Stroke.strokeVocabList m).map (fun p => (p.2, p.1))).map Prod.snd).Nodup := by
      rw [List.map_map]
      have hcomp : (Prod.snd ∘ fun p : Stroke.Sym × Nat => (p.2, p.1)) = Prod.fst := rfl
      rw [hcomp]
      exact Stroke.strokeVocab_keys_nodup m
    have h3 := pyGet_swap hv h
    rw [swap_involution] at h3
    exact h3

/-- Witness for `claim_C8_vocab_roundtrip` on the pinyin symbol `"zh"`
(id 18), the tone `"1"` (id 50) and a one-entry stroke table. -/
theorem claim_C8_vocab_roundtrip_witness :
    Pinyin.id2token 18 = some "zh"
    ∧ Pinyin.token2id "1" = some 50
    ∧ Stroke.id2stroke [(['a'], ['b'])] 4 = some ['b']
    ∧ Stroke.stroke2id [(['a'], ['b'])] Stroke.pad_tok = some 0 :=
  ⟨claim_C8_vocab_roundtrip.1 "zh" 18 (by decide),
   claim_C8_vocab_roundtrip.2.1 50 "1" (by decide),
   claim_C8_vocab_roundtrip.2.2.1 [(['a'], ['b'])] ['b'] 4 (by decide),
   claim_C8_vocab_roundtrip.2.2.2 [(['a'], ['b'])] 0 Stroke.pad_tok (by decide)⟩

/-- Claim C9: for every decomposition table, both graphemic vocabulary
builders give the special symbols PAD, UNK, CLS, SEP the fixed ids
0, 1, 2, 3, give every discovered stroke symbol an id at least 4, and no
discovered (single-character) symbol can collide with a special symbol. -/
theorem claim_C9_reserved_ids (m : List (Stroke.Sym × Stroke.Sym)) :
    (Stroke.stroke2id m Stroke.pad_tok = some 0
      ∧ Stroke.stroke2id m Stroke.unk_tok = some 1
      ∧ Stroke.stroke2id m Stroke.cls_tok = some 2
      ∧ Stroke.stroke2id m Stroke.sep_tok = some 3)
    ∧ (∀ c ∈ Stroke.strokeChars m, ∃ k, Stroke.stroke2id m [c] = some k ∧ 4 ≤ k)
    ∧ (∀ c : Char, [c] ≠ Stroke.pad_tok ∧ [c] ≠ Stroke.unk_tok
        ∧ [c] ≠ Stroke.cls_tok ∧ [c] ≠ Stroke.sep_tok)
    ∧ (Stroke.zhStroke2idx m Stroke.pad_tok = some 0
      ∧ Stroke.zhStroke2idx m Stroke.unk_tok = some 1
      ∧ Stroke.zhStroke2idx m Stroke.cls_tok = some 2
      ∧ Stroke.zhStroke2idx m Stroke.sep_tok = some 3)
    ∧ (∀ c ∈ Stroke.strokeChars m, ∃ k, Stroke.zhStroke2idx m [c] = some k ∧ 4 ≤ k) :=
  ⟨⟨Stroke.stroke2id_pad m, Stroke.stroke2id_unk m,
    Stroke.stroke2id_cls m, Stroke.stroke2id_sep m⟩,
   fun c hc => Stroke.stroke2id_mem_strokeChars m c hc,
   Stroke.singleton_ne_special,
   ⟨Stroke.zhStroke2idx_pad m, Stroke.zhStroke2idx_unk m,
    Stroke.zhStroke2idx_cls m, Stroke.zhStroke2idx_sep m⟩,
   fun c hc => Stroke.zhStroke2idx_mem m c hc⟩

/-- Witness for `claim_C9_reserved_ids` on a one-entry table whose only
discovered stroke symbol receives id 4 in both builders. -/
theorem claim_C9_reserved_ids_witness :
    Stroke.stroke2id [(['a'], ['b'])] Stroke.pad_tok = some 0
    ∧ (∃ k, Stroke.stroke2id [(['a'], ['b'])] ['b'] = some k ∧ 4 ≤ k)
    ∧ (∃ k, Stroke.zhStroke2idx [(['a'], ['b'])] ['b'] = some k ∧ 4 ≤ k) :=
  ⟨(claim_C9_reserved_ids [(['a'], ['b'])]).1.1,
   (claim_C9_reserved_ids [(['a'], ['b'])]).2.1 'b' (by decide),
   (claim_C9_reserved_ids [(['a'], ['b'])]).2.2.2.2 'b' (by decide)⟩

theorem callTok_fst (s : List (List String)) (maxLen : Nat) :
    (Pinyin.callTok s maxLen).1
      = (Pinyin.wrappedIds s).take maxLen
        ++ List.replicate (maxLen - ((Pinyin.wrappedIds s).take maxLen).length)
            Pinyin.padId := rfl

theorem zhCall_snd (m : List (Stroke.Sym × Stroke.Sym)) (text : List Char)
    (maxLen : Nat) :
    (Stroke.zhCall m text maxLen).2
      = List.replicate (Stroke.truncIds maxLen (Stroke.zhWrap m text)).length 1
        ++ List.replicate
            (maxLen - (Stroke.truncIds maxLen (Stroke.zhWrap m text)).length) 0 := rfl

theorem wrapText_getLast (m : List (Stroke.Sym × Stroke.Sym)) (text : List Char) :
    (Stroke.wrapText m text).getLast?
      = some ((Stroke.stroke2id m Stroke.sep_tok).getD 0) := by
  unfold Stroke.wrapText
  show (((Stroke.stroke2id m Stroke.cls_tok).getD 0
      :: (Stroke.text_to_strokes m text).map (Stroke.symId m))
      ++ [(Stroke.stroke2id m Stroke.sep_tok).getD 0]).getLast?
    = some ((Stroke.stroke2id m Stroke.sep_tok).getD 0)
  exact List.getLast?_concat _

/-- Claim C6: with truncation enabled, a wrapped id sequence longer than
`max_length` is cut to its left-hand prefix of length `max_length` in both
encoders; in particular a wrapped sequence of length `max_length + 1` is
cut to exactly `max_length` elements, deterministically dropping its last
element, which is the trailing SEP id. -/
theorem claim_C6_truncation_boundary :
    (∀ (s : List (List String)) (maxLen : Nat),
      maxLen < (Pinyin.wrappedIds s).length →
      (Pinyin.callTok s maxLen).1 = (Pinyin.wrappedIds s).take maxLen
        ∧ ((Pinyin.callTok s maxLen).1).length = maxLen)
    ∧ (∀ (s : List (List String)) (maxLen : Nat),
        (Pinyin.wrappedIds s).length = maxLen + 1 →
        (Pinyin.callTok s maxLen).1 = (Pinyin.wrappedIds s).dropLast
          ∧ (Pinyin.wrappedIds s).getLast? = some Pinyin.sepId)
    ∧ (∀ (m : List (Stroke.Sym × Stroke.Sym)) (text : List Char) (maxLen : Nat),
        maxLen < (Stroke.wrapText m text).length →
        (Stroke.callBatch m [text] maxLen).1 = [(Stroke.wrapText m text).take maxLen]
          ∧ ((Stroke.callBatch m [text] maxLen).1.headD []).length = maxLen)
    ∧ (∀ (m : List (Stroke.Sym × Stroke.Sym)) (text : List Char) (maxLen : Nat),
        (Stroke.wrapText m text).length = maxLen + 1 →
        (Stroke.callBatch m [text] maxLen).1 = [(Stroke.wrapText m text).dropLast]
          ∧ (Stroke.wrapText m text).getLast?
              = some ((Stroke.stroke2id m Stroke.sep_tok).getD 0)) := by
  have hpin : ∀ (s : List (List String)) (maxLen : Nat),
      maxLen < (Pinyin.wrappedIds s).length →
      (Pinyin.callTok s maxLen).1 = (Pinyin.wrappedIds s).take maxLen
        ∧ ((Pinyin.callTok s maxLen).1).length = maxLen := by
    intro s maxLen hlt
    have hl : ((Pinyin.wrappedIds s).take maxLen).length = maxLen := by
      rw [List.length_take]
      omega
    have h1 : (Pinyin.callTok s maxLen).1 = (Pinyin.wrappedIds s).take maxLen := by
      rw [callTok_fst, hl, Nat.sub_self, List.replicate_zero, List.append_nil]
    exact ⟨h1, by rw [h1, hl]⟩
  have hstroke : ∀ (m : List (Stroke.Sym × Stroke.Sym)) (text : List Char)
      (maxLen : Nat), maxLen < (Stroke.wrapText m text).length →
      (Stroke.callBatch m [text] maxLen).1 = [(Stroke.wrapText m text).take maxLen]
        ∧ ((Stroke.callBatch m [text] maxLen).1.headD []).length = maxLen := by
    intro m text maxLen hlt
    have hl : ((Stroke.wrapText m text).take maxLen).length = maxLen := by
      rw [List.length_take]
      omega
    have h1 : (Stroke.callBatch m [text] maxLen).1
        = [(Stroke.wrapText m text).take maxLen] := by
      rw [Stroke.callBatch_singleton]
    exact ⟨h1, by rw [h1, List.headD_cons, hl]⟩
  refine ⟨hpin, ?_, hstroke, ?_⟩
  · intro s maxLen hlen
    have hlt : maxLen < (Pinyin.wrappedIds s).length := by omega
    refine ⟨?_, ?_⟩
    · rw [(hpin s maxLen hlt).1, List.dropLast_eq_take, hlen]
      rfl
    · unfold Pinyin.wrappedIds
      show ((Pinyin.clsId :: Pinyin.encode s) ++ [Pinyin.sepId]).getLast?
          = some Pinyin.sepId
      exact List.getLast?_concat _
  · intro m text maxLen hlen
    have hlt : maxLen < (Stroke.wrapText m text).length := by omega
    refine ⟨?_, wrapText_getLast m text⟩
    rw [(hstroke m text maxLen hlt).1, List.dropLast_eq_take, hlen]
    rfl

/-- Witness for `claim_C6_truncation_boundary`: a pinyin input with wrapped
length 5 truncated at `max_length = 4`, and an empty-table stroke input
with wrapped length 4 truncated at `max_length = 3`, dropping the SEP id 3. -/
theorem claim_C6_truncation_boundary_witness :
    ((Pinyin.callTok [["ni3"]] 4).1).length = 4
    ∧ (Stroke.callBatch [] [['a', 'b']] 3).1 = [[2, 1, 1]]
    ∧ (Stroke.wrapText [] ['a', 'b']).getLast? = some 3 := by
  refine ⟨?_, ?_, ?_⟩
  · exact (claim_C6_truncation_boundary.1 [["ni3"]] 4 (by decide)).2
  · have h := (claim_C6_truncation_boundary.2.2.2 [] ['a', 'b'] 3 (by decide)).1
    rw [h]
    decide
  · have h := (claim_C6_truncation_boundary.2.2.2 [] ['a', 'b'] 3 (by decide)).2
    rw [h]
    decide

/-- Claim C7: graphemic encoding never fails (both `__call__` variants are
total functions) and the attention mask of a single-text call is 1 exactly
at the non-pad positions and 0 at the pad positions, so its sum is
`min(len(wrapped_ids), max_length)`. -/
theorem claim_C7_graphemic_mask (m : List (Stroke.Sym × Stroke.Sym))
    (text : List Char) (maxLen : Nat) :
    (Stroke.callBatch m [text] maxLen).2
        = [List.replicate (min (Stroke.wrapText m text).length maxLen) 1]
    ∧ ((Stroke.callBatch m [text] maxLen).2.headD []).sum
        = min (Stroke.wrapText m text).length maxLen
    ∧ (Stroke.zhCall m text maxLen).2
        = List.replicate (min (Stroke.zhWrap m text).length maxLen) 1
          ++ List.replicate (maxLen - min (Stroke.zhWrap m text).length maxLen) 0
    ∧ (Stroke.zhCall m text maxLen).2.sum
        = min (Stroke.zhWrap m text).length maxLen := by
  have hsum : ∀ n : Nat, (List.replicate n (1 : Nat)).sum = n := by
    intro n
    rw [List.sum_replicate, smul_eq_mul, mul_one]
  have hlen : ((Stroke.wrapText m text).take maxLen).length
      = min (Stroke.wrapText m text).length maxLen := by
    rw [List.length_take, Nat.min_comm]
  have hzlen : (Stroke.truncIds maxLen (Stroke.zhWrap m text)).length
      = min (Stroke.zhWrap m text).length maxLen := by
    rw [Stroke.truncIds_eq_take, List.length_take, Nat.min_comm]
  have hz : (Stroke.zhCall m text maxLen).2
      = List.replicate (min (Stroke.zhWrap m text).length maxLen) 1
        ++ List.replicate (maxLen - min (Stroke.zhWrap m text).length maxLen) 0 := by
    rw [zhCall_snd, hzlen]
  refine ⟨?_, ?_, hz, ?_⟩
  · rw [Stroke.callBatch_singleton, hlen]
  · rw [Stroke.callBatch_singleton, List.headD_cons, hlen, hsum]
  · rw [hz, List.sum_append, hsum, List.sum_replicate, smul_zero, Nat.add_zero]

end MedTok
